import Mathlib

/-!
Verification development for the marain terminal chat client.

The Rust sources are shallowly embedded: the `App` state machine
(`src/app.rs`), the keymap dispatcher (`src/default_keybinds.rs`), the log
ring (`src/chat_log.rs` / `src/app.rs`) and the event-dispatch function
(`src/update.rs`).  Rust `String`s are modelled as their character
sequences; byte-indexed operations (`len`, `split_at`, `split_off`) act
through the UTF-8 byte widths of the characters, and the panics of
`split_at`/`split_off` on an out-of-range or non-boundary byte index are
modelled by `Option` (`none` = panic).
-/

set_option maxHeartbeats 1000000
set_option maxRecDepth 100000

/-- A Rust `String`, as its sequence of Unicode scalar values. -/
abbrev RStr := List Char

/-- The number of bytes in the UTF-8 encoding of a character. -/
def utf8Width (c : Char) : Nat :=
  if c.toNat < 0x80 then 1
  else if c.toNat < 0x800 then 2
  else if c.toNat < 0x10000 then 3
  else 4

/-- Rust `String::len`: the length in bytes. -/
def byteLen (s : RStr) : Nat := (s.map utf8Width).sum

/-- Rust `str::split_at i` / `String::split_off i` at byte index `i`.
`none` models the panic raised when `i` is past the end of the string or
does not lie on a character boundary. -/
def splitAtByte : RStr → Nat → Option (RStr × RStr)
  | s, 0 => some ([], s)
  | [], _ + 1 => none
  | c :: rest, i + 1 =>
    if utf8Width c ≤ i + 1 then
      (splitAtByte rest (i + 1 - utf8Width c)).map (fun p => (c :: p.1, p.2))
    else none

/-- `i` is a character-boundary byte index of `s` (so `split_at i` does not
panic). -/
def isByteBoundary (s : RStr) (i : Nat) : Bool := (splitAtByte s i).isSome

/-- Rust `usize::clamp lo hi`.  The source panics when `lo > hi`; for
`App::set_caret_2d` that happens only when the buffer is empty, a state the
program never constructs (the invariance theorems below assume and
re-establish a non-empty buffer). -/
def clampNat (x lo hi : Nat) : Nat := min (max x lo) hi

/-- `src/app.rs` `Mode`. -/
inductive Mode
  | Navigate | Insert | InsertCommand | Disconnected
deriving DecidableEq, Repr

/-- `src/app.rs` `CaretMotion`. -/
inductive CaretMotion
  | Character | Line
deriving DecidableEq, Repr

/-- `src/app.rs` `Command`. -/
inductive Command
  | Reset
  | Quit
  | Capture (c : Char)
  | Del (offset : Int)
  | MoveCaret (motion : CaretMotion) (amount : Int)
  | Enter (mode : Mode)
  | SendBuffer
  | GetServerTime
  | MoveRooms (target : Option RStr)
  | SendStagedCommand
  | AbortStagedCommand
  | ToggleDebug
deriving DecidableEq, Repr

/-- `Command::parse_params` (`src/app.rs`). -/
def Command.parse_params (cmd : Command) (params : RStr) : Option Command :=
  match cmd with
  | Command.MoveRooms none => some (Command.MoveRooms (some params))
  | _ => none

/-- `marain_api` `ClientMsgBody` (the body variants the client builds). -/
inductive ClientMsgBody
  | Login (username : String) (public_key : List Nat)
  | SendToRoom (contents : RStr)
  | GetTime
  | Move (target : RStr)
deriving DecidableEq, Repr

/-- The relevant `crossterm` `KeyCode` variants; `Other` stands for every
further key code (none of which is bound by any keymap). -/
inductive KeyCode
  | Char (c : Char)
  | Enter | Esc | Left | Right | Up | Down | Backspace | Delete
  | Other (n : Nat)
deriving DecidableEq, Repr

/-- `src/tui_framework.rs` `Event`.  A crossterm `KeyEvent` is carried by
its `code` field, the only part `update` inspects.  Timestamps are opaque
`Nat`s. -/
inductive Event
  | Init | Quit | Closed | Render | FocusGained | FocusLost | Error | Tick
  | Key (code : KeyCode)
  | Mouse
  | Resize (w h : Nat)
  | Recv (data : List Nat)
  | Send (token : String) (username : String) (timestamp : Nat) (contents : RStr)
  | ServerCommand (token : String) (username : String) (timestamp : Nat)
      (body : ClientMsgBody)
  | ServerClose
deriving DecidableEq, Repr

/-- `src/chat_log.rs` `Log` (the render styling is presentation and is not
modelled; `from` is a Lean keyword, hence `from'`). -/
structure Log where
  ts : Nat
  from' : String
  msg : RStr
  debug : Bool
deriving DecidableEq, Repr

/-- `Log::new` (timestamp `Utc::now()` passed in as `now`). -/
def Log.new (now : Nat) (uname : String) (message : RStr) : Log :=
  { ts := now, from' := uname, msg := message, debug := false }

/-- `Log::new_debug`: `Log::new("DEBUG", format!("{data:?}")).as_debug()`;
the `Debug` rendering of the payload is passed in as `rendered`. -/
def Log.new_debug (now : Nat) (rendered : RStr) : Log :=
  { ts := now, from' := "DEBUG", msg := rendered, debug := true }

/-- `Log::at` (`at` is a Lean keyword, hence `at'`). -/
def Log.at' (l : Log) (dt : Nat) : Log := { l with ts := dt }

/-- `Log::should_render`. -/
def Log.should_render (l : Log) (show_debug : Bool) : Bool :=
  !l.debug || show_debug

/-- `src/app.rs` `KeyBinds`.  The only `Logical` binding the program ever
constructs is `KeyBinds::capture()`, embedded here as the dedicated
constructor `capture` with its closure's behaviour in `KeyBinds.check`. -/
inductive KeyBinds
  | Explicit (code : KeyCode) (cmd : Command)
  | capture
  | NoMap
deriving Repr

/-- `KeyBinds::check`. -/
def KeyBinds.check : KeyBinds → KeyCode → Option Command
  | KeyBinds.Explicit code command, c =>
    if code = c then some command else none
  | KeyBinds.capture, KeyCode.Char c => some (Command.Capture c)
  | KeyBinds.capture, _ => none
  | KeyBinds.NoMap, _ => none

/-- `src/default_keybinds.rs` `disocnnected` (typo kept from the source). -/
def disocnnected : List KeyBinds :=
  [KeyBinds.Explicit (KeyCode.Char 'q') Command.Quit]

/-- `src/default_keybinds.rs` `navigate`. -/
def navigate : List KeyBinds :=
  [KeyBinds.Explicit (KeyCode.Char 'i') (Command.Enter Mode.Insert),
   KeyBinds.Explicit (KeyCode.Char 'q') Command.Quit,
   KeyBinds.Explicit (KeyCode.Char 'r') Command.Reset,
   KeyBinds.Explicit (KeyCode.Char 't') Command.GetServerTime,
   KeyBinds.Explicit (KeyCode.Char 'm') (Command.MoveRooms none),
   KeyBinds.Explicit (KeyCode.Char 'd') Command.ToggleDebug]

/-- `src/default_keybinds.rs` `insert` (primed: the unqualified name
`insert` is ambiguous with `Insert.insert` in Lean). -/
def insert' : List KeyBinds :=
  [KeyBinds.Explicit KeyCode.Esc (Command.Enter Mode.Navigate),
   KeyBinds.Explicit KeyCode.Enter Command.SendBuffer,
   KeyBinds.Explicit KeyCode.Left (Command.MoveCaret CaretMotion.Character (-1)),
   KeyBinds.Explicit KeyCode.Right (Command.MoveCaret CaretMotion.Character 1),
   KeyBinds.Explicit KeyCode.Up (Command.MoveCaret CaretMotion.Line (-1)),
   KeyBinds.Explicit KeyCode.Down (Command.MoveCaret CaretMotion.Line 1),
   KeyBinds.capture,
   KeyBinds.Explicit KeyCode.Backspace (Command.Del (-1)),
   KeyBinds.Explicit KeyCode.Delete (Command.Del 0)]

/-- `src/default_keybinds.rs` `insert_cmd`. -/
def insert_cmd : List KeyBinds :=
  [KeyBinds.Explicit KeyCode.Esc Command.AbortStagedCommand,
   KeyBinds.Explicit KeyCode.Enter Command.SendStagedCommand,
   KeyBinds.Explicit KeyCode.Left (Command.MoveCaret CaretMotion.Character (-1)),
   KeyBinds.Explicit KeyCode.Right (Command.MoveCaret CaretMotion.Character 1),
   KeyBinds.Explicit KeyCode.Up (Command.MoveCaret CaretMotion.Line (-1)),
   KeyBinds.Explicit KeyCode.Down (Command.MoveCaret CaretMotion.Line 1),
   KeyBinds.capture,
   KeyBinds.Explicit KeyCode.Backspace (Command.Del (-1)),
   KeyBinds.Explicit KeyCode.Delete (Command.Del 0)]

/-- `src/default_keybinds.rs` `keys`: the per-mode binding table (the
source stores the four lists in a `HashMap<Mode, Vec<KeyBinds>>`). -/
def keys : Mode → List KeyBinds
  | Mode.Navigate => navigate
  | Mode.Insert => insert'
  | Mode.InsertCommand => insert_cmd
  | Mode.Disconnected => disocnnected

/-- The `for binding in binds` loop of `ModalKeyMaps::get_cmd`: the first
binding whose `check` matches wins. -/
def getCmdList : List KeyBinds → KeyCode → Option Command
  | [], _ => none
  | b :: rest, code =>
    match b.check code with
    | some cmd => some cmd
    | none => getCmdList rest code

/-- `ModalKeyMaps::get_cmd` over the default tables (the `keymaps` field of
`App` holds `ModalKeyMaps::default()` and is never mutated). -/
def ModalKeyMaps.get_cmd (mode : Mode) (code : KeyCode) : Option Command :=
  getCmdList (keys mode) code

/-- `marain_api` `ChatMsg` (timestamp converted to `Option`, as the
`Into::<Option<DateTime<Utc>>>` conversions in `update.rs` do). -/
structure ChatMsg where
  sender : String
  content : RStr
  timestamp : Option Nat
deriving DecidableEq, Repr

/-- `marain_api` `Status`. -/
inductive Status
  | Yes
  | No (reason : RStr)
  | JustNo
deriving DecidableEq, Repr

/-- `marain_api` `ServerMsgBody` (the fields `update.rs` reads; the
ignored `..` fields of `RoomData` are omitted). -/
inductive ServerMsgBody
  | LoginSuccess (token : String) (public_key : List Nat)
  | ChatRecv (chat_msg : ChatMsg)
  | Empty
  | RoomData (logs : List ChatMsg)
deriving DecidableEq, Repr

/-- `marain_api` `ServerMsg`. -/
structure ServerMsg where
  status : Status
  timestamp : Option Nat
  body : ServerMsgBody
deriving DecidableEq, Repr

/-- `src/app.rs` `App`.  `command_sink` is modelled by its presence (the
unbounded channel never rejects a send while the receiver lives); the
events pushed into it are returned alongside the new state by `App.handle`.
The constant `keymaps` field is represented by the global `keys` table. -/
structure App where
  should_quit : Bool
  show_debug : Bool
  buffer : List RStr
  caret_offset : Nat × Nat
  logs : List Log
  mode : Mode
  staged_command : Option Command
  username : String
  token : Option String
  shared_secret : Option (List Nat)
  command_sink : Bool
deriving DecidableEq, Repr

/-- `App::new`. -/
def App.new (username : String) : App :=
  { should_quit := false
    show_debug := false
    buffer := [[]]
    caret_offset := (1, 1)
    logs := []
    mode := Mode.Navigate
    staged_command := none
    username := username
    token := none
    shared_secret := none
    command_sink := false }

/-- `App::map_key`. -/
def App.map_key (app : App) (code : KeyCode) : Option Command :=
  ModalKeyMaps.get_cmd app.mode code

/-- `App::set_caret_2d`.  Note that the column is clamped against the line
at index `(row − 1) % buffer.len()` computed from the *argument* `row`, not
from the freshly clamped row (`src/app.rs:163-169`). -/
def App.set_caret_2d (app : App) (row col : Nat) : App :=
  { app with
    caret_offset :=
      (clampNat row 1 app.buffer.length,
       clampNat col 1
        (byteLen (app.buffer.getD ((row - 1) % app.buffer.length) []) + 1)) }

/-- `App::get_caret_2d`. -/
def App.get_caret_2d (app : App) : Nat × Nat := app.caret_offset

/-- `App::render_buf`: fold-concatenation of all buffer lines. -/
def App.render_buf (app : App) : RStr :=
  app.buffer.foldl (fun acc el => acc ++ el) []

/-- `App::split_current_at_caret`.  Rust `split_at(col - 1)` panics when
`col - 1` is not a character boundary, modelled by `none`. -/
def App.split_current_at_caret (app : App) : Option (RStr × RStr) :=
  let row := app.caret_offset.1
  let col := app.caret_offset.2
  let buf_line := app.buffer.getD (row - 1) []
  if 0 < byteLen buf_line then splitAtByte buf_line (col - 1)
  else some (buf_line, [])

/-- `App::handle_capture`.  `split_off(col)` panics off a character
boundary (`none`); both branches then bump the caret column by one. -/
def App.handle_capture (app : App) (c : Char) : Option App :=
  let row := app.caret_offset.1
  let col := app.caret_offset.2
  let buf_line := app.buffer.getD (row - 1) []
  if col < byteLen buf_line then
    match splitAtByte buf_line col with
    | none => none
    | some (pre, post) =>
      some { app with
              buffer := app.buffer.set (row - 1) (pre ++ [c] ++ post),
              caret_offset := (app.caret_offset.1, app.caret_offset.2 + 1) }
  else
    some { app with
            buffer := app.buffer.set (row - 1) (buf_line ++ [c]),
            caret_offset := (app.caret_offset.1, app.caret_offset.2 + 1) }

/-- `App::handle_deletion`.  `pre.chars().take(pre.len() - 1)` takes
characters counted by the *byte* length of `pre`, exactly as the source
does. -/
def App.handle_deletion (app : App) (offset : Int) : Option App :=
  match app.split_current_at_caret with
  | none => none
  | some (pre, post) =>
    let row := app.caret_offset.1
    let col := app.caret_offset.2
    if offset < 0 then
      if 1 ≤ byteLen pre then
        let app' := app.set_caret_2d row (col - 1)
        some { app' with
                buffer := app'.buffer.set (row - 1)
                  (pre.take (byteLen pre - 1) ++ post) }
      else
        some { app with buffer := app.buffer.set (row - 1) (pre ++ post) }
    else
      if 1 ≤ byteLen post then
        some { app with buffer := app.buffer.set (row - 1) (pre ++ post.drop 1) }
      else
        some { app with buffer := app.buffer.set (row - 1) (pre ++ post) }

/-- `App::handle_caret_move`: `(x as isize + amount).max(0) as usize`
followed by `set_caret_2d`. -/
def App.handle_caret_move (app : App) (motion : CaretMotion) (amount : Int) : App :=
  let row := app.caret_offset.1
  let col := app.caret_offset.2
  let new_caret : Nat × Nat :=
    match motion with
    | CaretMotion.Character => (row, (max ((col : Int) + amount) 0).toNat)
    | CaretMotion.Line => ((max ((row : Int) + amount) 0).toNat, col)
  app.set_caret_2d new_caret.1 new_caret.2

/-- `App::log_count`: entries renderable under the current debug flag. -/
def App.log_count (app : App) : Nat :=
  (app.logs.filter (fun l => l.should_render app.show_debug)).length

/-- `App::push_log`: prepend, then pop one entry from the back if the
visible count exceeds 100. -/
def App.push_log (app : App) (log : Log) : App :=
  let app := { app with logs := log :: app.logs }
  if 100 < app.log_count then { app with logs := app.logs.dropLast } else app

/-- `App::push_debug_log` (no eviction in the source). -/
def App.push_debug_log (app : App) (now : Nat) (rendered : RStr) : App :=
  { app with logs := Log.new_debug now rendered :: app.logs }

/-- `App::replace_logs`. -/
def App.replace_logs (app : App) (chat_logs : List Log) : App :=
  chat_logs.foldl App.push_log { app with logs := [] }

/-- `App::store_token`. -/
def App.store_token (app : App) (token : String) : App :=
  { app with token := some token }

/-- `App::send_server_command` (`&self`: no state change; the events
pushed into the sink are returned).  The `todo!()` arm for any other
command is a panic, modelled by `none`; the channel-send error path only
logs and is modelled as the successful send. -/
def App.send_server_command (app : App) (now : Nat) (cmd : Command) :
    Option (List Event) :=
  let body? : Option ClientMsgBody :=
    match cmd with
    | Command.GetServerTime => some ClientMsgBody.GetTime
    | Command.MoveRooms (some target) => some (ClientMsgBody.Move target)
    | _ => none
  match body? with
  | none => none
  | some body =>
    match app.command_sink, app.token with
    | true, some tok => some [Event.ServerCommand tok app.username now body]
    | _, _ => some []

/-- `App::handle_send`.  The composed `Log` is used only for its timestamp
and message body; it is never pushed into `logs`.  When the token or the
sink is absent the send is silently skipped; the buffer and caret are reset
in every case. -/
def App.handle_send (app : App) (now : Nat) : App × List Event :=
  let chat_log := Log.new now app.username app.render_buf
  let evs : List Event :=
    match app.command_sink, app.token with
    | true, some tok =>
      [Event.Send tok app.username chat_log.ts chat_log.msg]
    | _, _ => []
  ({ app with buffer := [[]], caret_offset := (1, 1) }, evs)

/-- `App::switch_mode`: entering `Insert` re-clamps the caret. -/
def App.switch_mode (app : App) (mode : Mode) : App :=
  let app := { app with mode := mode }
  match mode with
  | Mode.Insert => app.set_caret_2d app.caret_offset.1 app.caret_offset.2
  | _ => app

/-- `App::handle_send_staged_command`. -/
def App.handle_send_staged_command (app : App) (now : Nat) :
    Option (App × List Event) :=
  match app.staged_command with
  | none => some (app, [])
  | some cmd =>
    let param_string := app.render_buf
    let evs? : Option (List Event) :=
      match cmd.parse_params param_string with
      | some command_with_params => app.send_server_command now command_with_params
      | none => some []
    match evs? with
    | none => none
    | some evs =>
      let app := { app with
                    buffer := [[]], caret_offset := (1, 1),
                    staged_command := none }
      some (app.switch_mode Mode.Navigate, evs)

/-- `App::handle_abort_staged_command`. -/
def App.handle_abort_staged_command (app : App) : App :=
  let app :=
    if app.staged_command.isSome then { app with staged_command := none } else app
  let app := { app with buffer := [[]], caret_offset := (1, 1) }
  app.switch_mode Mode.Navigate

/-- `App::handle`.  `now` stands for `Utc::now()`; emitted events (sends
into `command_sink`) are returned; `none` models a panic inside the
editing operations. -/
def App.handle (app : App) (now : Nat) (cmd : Command) :
    Option (App × List Event) :=
  match cmd with
  | Command.Quit => some ({ app with should_quit := true }, [])
  | Command.Reset => some ({ app with buffer := [[]], caret_offset := (1, 1) }, [])
  | Command.Capture c => (app.handle_capture c).map (fun a => (a, []))
  | Command.Enter mode => some (app.switch_mode mode, [])
  | Command.SendBuffer => some (app.handle_send now)
  | Command.MoveCaret motion amount =>
    some (app.handle_caret_move motion amount, [])
  | Command.Del offset => (app.handle_deletion offset).map (fun a => (a, []))
  | Command.GetServerTime =>
    (app.send_server_command now Command.GetServerTime).map (fun evs => (app, evs))
  | Command.ToggleDebug => some ({ app with show_debug := !app.show_debug }, [])
  | Command.MoveRooms none =>
    let app := { app with staged_command := some (Command.MoveRooms none) }
    some (app.switch_mode Mode.InsertCommand, [])
  | Command.SendStagedCommand => app.handle_send_staged_command now
  | Command.AbortStagedCommand => some (app.handle_abort_staged_command, [])
  | Command.MoveRooms (some _) => some (app, [])

/-- `App.handle`, keeping only the state (for command sequences). -/
def App.handle_state (app : App) (now : Nat) (cmd : Command) : Option App :=
  (app.handle now cmd).map Prod.fst

/-- Apply a sequence of commands through `App::handle`; `none` as soon as
one command panics. -/
def applyEdits (now : Nat) (app : App) (cmds : List Command) : Option App :=
  match cmds with
  | [] => some app
  | cmd :: rest =>
    match app.handle_state now cmd with
    | none => none
    | some app' => applyEdits now app' rest

/-- The external formatting/serialization collaborators `update` consumes:
`bincode::deserialize` plus the two `format!` renderings.  The wire codec
is opaque per the spec, so `update` is parametric in it. -/
structure Codec where
  deserialize : List Nat → Except RStr ServerMsg
  fmtDebug : ServerMsg → RStr
  fmtTime : Nat → RStr

/-- `src/update.rs` `update`.  The bytes carried by `Event::Recv` are
passed to `deserialize` exactly as received (`update.rs:30`); no use is
made of `shared_secret` on this path. -/
def update (codec : Codec) (now : Nat) (app : App) (event : Event) :
    Option (App × List Event) :=
  match event with
  | Event.Tick => some (app, [])
  | Event.Key code =>
    match app.map_key code with
    | some cmd => app.handle now cmd
    | none => some (app, [])
  | Event.ServerClose =>
    let app := app.push_log
      (Log.new now "SERVER" (String.toList "Connection closed by server"))
    some (app.switch_mode Mode.Disconnected, [])
  | Event.Recv msg =>
    match codec.deserialize msg with
    | Except.ok deserialized =>
      let app := app.push_debug_log now (codec.fmtDebug deserialized)
      let timestamp_dt := deserialized.timestamp
      match deserialized.status with
      | Status.No error_msg =>
        some (app.push_log (Log.new now "SERVER" error_msg), [])
      | Status.JustNo =>
        some (app.push_log (Log.new now "CLIENT" (String.toList "Failed to login")), [])
      | Status.Yes =>
        match deserialized.body with
        | ServerMsgBody.LoginSuccess token _public_key =>
          some (app.store_token token, [])
        | ServerMsgBody.ChatRecv cm =>
          some (app.push_log
            ((Log.new now cm.sender cm.content).at' (timestamp_dt.getD now)), [])
        | ServerMsgBody.Empty =>
          let server_time := timestamp_dt.getD now
          some (app.push_log
            (Log.new now "SERVER"
              (String.toList "The time is: " ++ codec.fmtTime server_time)), [])
        | ServerMsgBody.RoomData logs =>
          let chat_logs := logs.map
            (fun cm => (Log.new now cm.sender cm.content).at' (cm.timestamp.getD now))
          some (app.replace_logs chat_logs, [])
    | Except.error deserialization_err =>
      some (app.push_log
        (Log.new now "CLIENT"
          (String.toList "Could not deserialize inbound message: " ++
            deserialization_err)), [])
  | _ => some (app, [])

/-- States reachable from `App::new` by the dispatch loop of
`src/main.rs::run` (events through `update`) together with the `setup`
assignments (`set_shared_secret`, `app.token = Some`, `set_send_chan`). -/
inductive Reach (username : String) : App → Prop
  | init : Reach username (App.new username)
  | step (codec : Codec) (now : Nat) (event : Event) (app app' : App)
      (evs : List Event) :
      Reach username app → update codec now app event = some (app', evs) →
      Reach username app'
  | set_shared_secret (app : App) (key : List Nat) :
      Reach username app → Reach username { app with shared_secret := some key }
  | set_token (app : App) (token : String) :
      Reach username app → Reach username { app with token := some token }
  | set_send_chan (app : App) :
      Reach username app → Reach username { app with command_sink := true }

/-- The caret/buffer invariant of the spec: non-empty buffer, row within
`[1, line count]`, column within `[1, current line byte length + 1]`. -/
def CaretInv (app : App) : Prop :=
  app.buffer ≠ [] ∧
  1 ≤ app.caret_offset.1 ∧ app.caret_offset.1 ≤ app.buffer.length ∧
  1 ≤ app.caret_offset.2 ∧
  app.caret_offset.2 ≤
    byteLen (app.buffer.getD (app.caret_offset.1 - 1) []) + 1

instance (app : App) : Decidable (CaretInv app) := by
  unfold CaretInv; infer_instance

/-- The editing commands of claims C1/C10. -/
def isEditCmd : Command → Bool
  | Command.Capture _ => true
  | Command.Del _ => true
  | Command.MoveCaret _ _ => true
  | _ => false

/-- The log-ring operations of claim C2. -/
inductive LogOp
  | push (log : Log)
  | pushDebug (now : Nat) (rendered : RStr)
  | replace (chat_logs : List Log)
  | toggle

/-- Apply one log-ring operation (`ToggleDebug` is
`App::handle_toggle_debug`). -/
def applyLogOp (app : App) : LogOp → App
  | LogOp.push log => app.push_log log
  | LogOp.pushDebug now rendered => app.push_debug_log now rendered
  | LogOp.replace chat_logs => app.replace_logs chat_logs
  | LogOp.toggle => { app with show_debug := !app.show_debug }

/-- Apply a sequence of log-ring operations. -/
def applyLogOps (app : App) (ops : List LogOp) : App :=
  ops.foldl applyLogOp app

/-- Log-ring operations that only involve non-debug entries (claim C2,
amended). -/
def goodLogOp : LogOp → Bool
  | LogOp.push log => !log.debug
  | LogOp.pushDebug _ _ => false
  | LogOp.replace chat_logs => chat_logs.all (fun l => !l.debug)
  | LogOp.toggle => true

/-- A log store holding only non-debug entries, within the ring bound. -/
def GoodLogState (app : App) : Prop :=
  (∀ l ∈ app.logs, l.debug = false) ∧ app.logs.length ≤ 100

/-- Modelled from the spec: the external `sphinx` crate's `cbc_decode`
(`decrypt(key, bytes) -> bytes | error`, block-cipher-with-chaining with a
per-message IV, spec §4.2/§6) is not part of this repository's sources.
Minimal byte-wise CBC model: the first byte is the IV, each plaintext byte
is the deciphered byte XORed with the previous ciphertext byte. -/
def specCbcDecode (key : List Nat) (enc : List Nat) : Option (List Nat) :=
  match enc with
  | [] => none
  | iv :: body =>
    let k := key.headD 0
    some ((body.zip (iv :: body)).map
      (fun p => (Nat.xor (Nat.xor p.1 k) p.2) % 256))

/-- The iff between a staged command and `InsertCommand` mode, split into
its two directions; the second direction also admits `Disconnected`, which
is what the code actually guarantees (claim C4, amended). -/
def StagedInv (app : App) : Prop :=
  (app.mode = Mode.InsertCommand → app.staged_command.isSome) ∧
  (app.staged_command.isSome →
    app.mode = Mode.InsertCommand ∨ app.mode = Mode.Disconnected)

/-- A codec whose inbound deserialization always fails (used to exercise
`update` on non-`Recv` events, where the codec is irrelevant). -/
def trivialCodec : Codec :=
  { deserialize := fun _ => Except.error []
    fmtDebug := fun _ => []
    fmtTime := fun _ => [] }

/-- Navigate-mode state directly after pressing 'm': `MoveRooms(None)` is
staged and the mode is `InsertCommand`. -/
def appStagedIC : App :=
  { App.new "u" with
    mode := Mode.InsertCommand,
    staged_command := some (Command.MoveRooms none) }

/-- The log entry `update` pushes on `ServerClose` (timestamp 0). -/
def serverCloseLog : Log :=
  Log.new 0 "SERVER" (String.toList "Connection closed by server")

/-- The state after `ServerClose` arrives in `appStagedIC`: mode
`Disconnected`, staged command still present. -/
def appStagedDisc : App :=
  { App.new "u" with
    mode := Mode.Disconnected,
    staged_command := some (Command.MoveRooms none),
    logs := [serverCloseLog] }

/-- Two-line buffer `["abcd", ""]` with the caret at the end of line 1 —
a state satisfying the caret invariant. -/
def appTwoLines : App :=
  { App.new "u" with buffer := [['a', 'b', 'c', 'd'], []], caret_offset := (1, 5) }

/-- `appTwoLines` after `MoveCaret(Line, +2)`: caret (2,5) although line 2
is empty. -/
def appTwoLinesAfter : App :=
  { App.new "u" with buffer := [['a', 'b', 'c', 'd'], []], caret_offset := (2, 5) }

/-- The editing sequence used to witness invariant preservation. -/
def c1Cmds : List Command :=
  [Command.Capture 'a', Command.MoveCaret CaretMotion.Character (-1), Command.Del 0]

/-- A non-debug log entry. -/
def nlog : Log := Log.new 0 "user" []

/-- Debug display on, 100 ordinary pushes, then one debug push: the
overflow sequence for the log ring. -/
def overflowOps : List LogOp :=
  LogOp.toggle :: (List.replicate 100 (LogOp.push nlog) ++ [LogOp.pushDebug 0 []])

/-- A 32-byte shared secret. -/
def secretK : List Nat := List.replicate 32 0

/-- A successful inbound chat message. -/
def chatMsgX : ServerMsg :=
  { status := Status.Yes
    timestamp := some 5
    body := ServerMsgBody.ChatRecv
      { sender := "bob", content := ['h', 'i'], timestamp := some 7 } }

/-- A codec that deserializes exactly the raw wire bytes `[1, 2]`. -/
def codecX : Codec :=
  { deserialize := fun b => if b = [1, 2] then Except.ok chatMsgX else Except.error []
    fmtDebug := fun _ => []
    fmtTime := fun _ => [] }

/-- A mid-session app: shared secret stored, logged in, sink connected. -/
def appMidSession : App :=
  { App.new "u" with
    shared_secret := some secretK, token := some "tok", command_sink := true }

/-- An Insert-mode app with token and sink present and buffer "hi". -/
def appInsertReady : App :=
  { App.new "alice" with
    mode := Mode.Insert, token := some "tok", command_sink := true,
    buffer := [['h', 'i']], caret_offset := (1, 3) }

/-- Single line "ab" with the caret at (1,1). -/
def appAB : App :=
  { App.new "u" with buffer := [['a', 'b']], caret_offset := (1, 1) }

/-- Scenario D of the spec: two-line buffer `["ab","cd"]`, caret (2,1). -/
def appScenD : App :=
  { App.new "u" with buffer := [['a', 'b'], ['c', 'd']], caret_offset := (2, 1) }

/-! ### Basic lemmas about byte lengths and byte-index splitting -/

theorem utf8Width_pos (c : Char) : 1 ≤ utf8Width c := by
  unfold utf8Width
  split_ifs <;> omega

theorem byteLen_nil : byteLen [] = 0 := rfl

theorem byteLen_cons (c : Char) (s : RStr) :
    byteLen (c :: s) = utf8Width c + byteLen s := by
  simp [byteLen]

theorem byteLen_append (a b : RStr) :
    byteLen (a ++ b) = byteLen a + byteLen b := by
  simp [byteLen]

theorem byteLen_eq_zero {s : RStr} (h : byteLen s = 0) : s = [] := by
  cases s with
  | nil => rfl
  | cons c t =>
    have := utf8Width_pos c
    rw [byteLen_cons] at h
    omega

theorem length_le_byteLen (s : RStr) : s.length ≤ byteLen s := by
  induction s with
  | nil => simp [byteLen]
  | cons c t ih =>
    have := utf8Width_pos c
    rw [byteLen_cons]
    simp only [List.length_cons]
    omega

theorem splitAtByte_eq (s : RStr) :
    ∀ (i : Nat) (a b : RStr), splitAtByte s i = some (a, b) →
      s = a ++ b ∧ byteLen a = i := by
  induction s with
  | nil =>
    intro i a b h
    match i with
    | 0 =>
      simp only [splitAtByte, Option.some.injEq, Prod.mk.injEq] at h
      obtain ⟨h1, h2⟩ := h
      subst h1; subst h2
      exact ⟨rfl, rfl⟩
    | _ + 1 => simp [splitAtByte] at h
  | cons c rest ih =>
    intro i a b h
    match i with
    | 0 =>
      simp only [splitAtByte, Option.some.injEq, Prod.mk.injEq] at h
      obtain ⟨h1, h2⟩ := h
      subst h1; subst h2
      exact ⟨rfl, rfl⟩
    | i + 1 =>
      simp only [splitAtByte] at h
      split at h
      · cases hsp : splitAtByte rest (i + 1 - utf8Width c) with
        | none => rw [hsp] at h; simp at h
        | some p =>
          rw [hsp] at h
          simp only [Option.map_some', Option.some.injEq, Prod.mk.injEq] at h
          obtain ⟨h1, h2⟩ := h
          obtain ⟨hs, hb⟩ := ih _ _ _ hsp
          subst h2
          constructor
          · rw [← h1]; simp [hs]
          · rw [← h1, byteLen_cons, hb]
            omega
      · exact absurd h (by simp)

theorem splitAtByte_append (a b : RStr) :
    splitAtByte (a ++ b) (byteLen a) = some (a, b) := by
  induction a with
  | nil => simp [byteLen_nil, splitAtByte]
  | cons c t ih =>
    rw [byteLen_cons]
    have hw := utf8Width_pos c
    have hk : utf8Width c + byteLen t = (utf8Width c + byteLen t - 1) + 1 := by omega
    rw [List.cons_append, hk]
    simp only [splitAtByte]
    have hle : utf8Width c ≤ (utf8Width c + byteLen t - 1) + 1 := by omega
    rw [if_pos hle]
    have harg : (utf8Width c + byteLen t - 1) + 1 - utf8Width c = byteLen t := by omega
    rw [harg, ih]
    rfl

theorem splitAtByte_self (s : RStr) : splitAtByte s (byteLen s) = some (s, []) := by
  have := splitAtByte_append s []
  simpa using this

theorem byteLen_take_ge (s : RStr) (k : Nat) :
    min k (byteLen s) ≤ byteLen (s.take k) := by
  induction s generalizing k with
  | nil => simp [byteLen]
  | cons c t ih =>
    cases k with
    | zero => simp
    | succ k =>
      have hw := utf8Width_pos c
      have := ih k
      simp only [List.take_succ_cons, byteLen_cons]
      omega

theorem foldl_append_eq (L : List RStr) :
    ∀ acc : RStr, L.foldl (fun a e => a ++ e) acc = acc ++ L.flatten := by
  induction L with
  | nil => intro acc; simp
  | cons x xs ih => intro acc; simp [ih]

theorem render_buf_eq_flatten (app : App) : app.render_buf = app.buffer.flatten := by
  unfold App.render_buf
  simpa using foldl_append_eq app.buffer []

/-! ### Small structural lemmas about the handlers -/

theorem clampNat_le (x lo hi : Nat) : clampNat x lo hi ≤ hi := by
  unfold clampNat; omega

theorem clampNat_ge (x lo hi : Nat) (h : lo ≤ hi) : lo ≤ clampNat x lo hi := by
  unfold clampNat; omega

theorem clampNat_eq_self {x lo hi : Nat} (h1 : lo ≤ x) (h2 : x ≤ hi) :
    clampNat x lo hi = x := by
  unfold clampNat; omega

theorem set_getD_self (l : List α) (i : Nat) (d : α) (h : i < l.length) :
    l.set i (l.getD i d) = l := by
  induction l generalizing i with
  | nil => simp at h
  | cons x t ih =>
    cases i with
    | zero => simp
    | succ i =>
      simp only [List.set_cons_succ, List.getD_cons_succ, List.cons.injEq, true_and]
      exact ih i (by simpa using h)

theorem getD_set_self (l : List α) (i : Nat) (a d : α) (h : i < l.length) :
    (l.set i a).getD i d = a := by
  induction l generalizing i with
  | nil => simp at h
  | cons x t ih =>
    cases i with
    | zero => simp
    | succ i =>
      simp only [List.set_cons_succ, List.getD_cons_succ]
      exact ih i (by simpa using h)

theorem handle_state_capture (app : App) (now : Nat) (c : Char) :
    app.handle_state now (Command.Capture c) = app.handle_capture c := by
  simp only [App.handle_state, App.handle]
  cases h : app.handle_capture c <;> simp [h]

theorem handle_state_del (app : App) (now : Nat) (o : Int) :
    app.handle_state now (Command.Del o) = app.handle_deletion o := by
  simp only [App.handle_state, App.handle]
  cases h : app.handle_deletion o <;> simp [h]

theorem handle_state_move (app : App) (now : Nat) (m : CaretMotion) (a : Int) :
    app.handle_state now (Command.MoveCaret m a) =
      some (app.handle_caret_move m a) := rfl

theorem set_caret_2d_single {app : App} {l : RStr} (hb : app.buffer = [l])
    (row col : Nat) :
    app.set_caret_2d row col =
      { app with caret_offset := (1, clampNat col 1 (byteLen l + 1)) } := by
  unfold App.set_caret_2d
  rw [hb]
  simp only [List.length_singleton, Nat.mod_one, List.getD_cons_zero]
  have h1 : clampNat row 1 1 = 1 := by unfold clampNat; omega
  rw [h1]

/-- Shape of a capture at a boundary column `col ≤ byteLen line`: the new
line is the first `col` bytes, then the character, then the rest, and the
caret column grows by one.  (At `col = byteLen line` the split is
`(line, [])` and the append branch of the source produces the same
result.) -/
theorem capture_shape (app : App) (ch : Char) (row col : Nat)
    (line pre post : RStr)
    (hcaret : app.caret_offset = (row, col))
    (hline : app.buffer.getD (row - 1) [] = line)
    (hcol : col ≤ byteLen line)
    (hsplit : splitAtByte line col = some (pre, post)) :
    app.handle_capture ch =
      some { app with buffer := app.buffer.set (row - 1) (pre ++ ch :: post),
                      caret_offset := (row, col + 1) } := by
  have h1 : app.caret_offset.1 = row := by rw [hcaret]
  have h2 : app.caret_offset.2 = col := by rw [hcaret]
  simp only [App.handle_capture, h1, h2, hline]
  rcases Nat.lt_or_ge col (byteLen line) with hlt | hge
  · rw [if_pos hlt, hsplit]
    simp
  · have hco : col = byteLen line := le_antisymm hcol hge
    rw [if_neg (by omega)]
    subst hco
    rw [splitAtByte_self] at hsplit
    simp only [Option.some.injEq, Prod.mk.injEq] at hsplit
    obtain ⟨hp, hq⟩ := hsplit
    subst hp
    subst hq
    simp

theorem handle_capture_frame {app a : App} {c : Char}
    (h : app.handle_capture c = some a) :
    a.mode = app.mode ∧ a.staged_command = app.staged_command := by
  simp only [App.handle_capture] at h
  split at h
  · split at h
    · exact absurd h (by simp)
    · simp only [Option.some.injEq] at h
      subst h
      exact ⟨rfl, rfl⟩
  · simp only [Option.some.injEq] at h
    subst h
    exact ⟨rfl, rfl⟩

theorem handle_deletion_frame {app a : App} {o : Int}
    (h : app.handle_deletion o = some a) :
    a.mode = app.mode ∧ a.staged_command = app.staged_command := by
  simp only [App.handle_deletion] at h
  split at h
  · exact absurd h (by simp)
  · split at h
    · split at h
      · simp only [Option.some.injEq] at h
        subst h
        constructor <;> simp [App.set_caret_2d]
      · simp only [Option.some.injEq] at h
        subst h
        exact ⟨rfl, rfl⟩
    · split at h
      · simp only [Option.some.injEq] at h
        subst h
        exact ⟨rfl, rfl⟩
      · simp only [Option.some.injEq] at h
        subst h
        exact ⟨rfl, rfl⟩

theorem handle_caret_move_frame (app : App) (m : CaretMotion) (amt : Int) :
    (app.handle_caret_move m amt).mode = app.mode ∧
    (app.handle_caret_move m amt).staged_command = app.staged_command := by
  cases m <;> simp [App.handle_caret_move, App.set_caret_2d]

theorem switch_mode_fields (app : App) (m : Mode) :
    (app.switch_mode m).mode = m ∧
    (app.switch_mode m).staged_command = app.staged_command := by
  cases m <;> simp [App.switch_mode, App.set_caret_2d]

theorem handle_abort_fields (app : App) :
    app.handle_abort_staged_command.mode = Mode.Navigate ∧
    app.handle_abort_staged_command.staged_command = none := by
  unfold App.handle_abort_staged_command
  cases hsc : app.staged_command <;> simp [App.switch_mode, hsc]

theorem push_log_frame (app : App) (l : Log) :
    (app.push_log l).mode = app.mode ∧
    (app.push_log l).staged_command = app.staged_command := by
  constructor <;> (simp only [App.push_log]; split <;> rfl)

theorem foldl_push_log_frame (ls : List Log) :
    ∀ app : App, (ls.foldl App.push_log app).mode = app.mode ∧
      (ls.foldl App.push_log app).staged_command = app.staged_command := by
  induction ls with
  | nil => intro app; exact ⟨rfl, rfl⟩
  | cons x xs ih =>
    intro app
    simp only [List.foldl_cons]
    obtain ⟨h1, h2⟩ := ih (app.push_log x)
    obtain ⟨g1, g2⟩ := push_log_frame app x
    exact ⟨h1.trans g1, h2.trans g2⟩

theorem staged_inv_congr {a b : App} (hm : a.mode = b.mode)
    (hs : a.staged_command = b.staged_command) (h : StagedInv b) : StagedInv a := by
  unfold StagedInv at *
  rw [hm, hs]
  exact h

theorem staged_inv_of_fields {a : App} (hm : a.mode ≠ Mode.InsertCommand)
    (hs : a.staged_command = none) : StagedInv a := by
  constructor
  · intro h
    exact absurd h hm
  · intro h
    rw [hs] at h
    simp at h

theorem staged_inv_of_staged {a : App} (hm : a.mode = Mode.InsertCommand)
    (hs : a.staged_command.isSome) : StagedInv a :=
  ⟨fun _ => hs, fun _ => Or.inl hm⟩

theorem staged_inv_of_disc {a : App} (hm : a.mode = Mode.Disconnected) :
    StagedInv a := by
  constructor
  · intro h
    rw [h] at hm
    simp at hm
  · intro _
    exact Or.inr hm

/-! ### What each keymap can produce -/

theorem getCmdList_navigate {code : KeyCode} {cmd : Command}
    (h : getCmdList navigate code = some cmd) :
    cmd = Command.Enter Mode.Insert ∨ cmd = Command.Quit ∨ cmd = Command.Reset ∨
    cmd = Command.GetServerTime ∨ cmd = Command.MoveRooms none ∨
    cmd = Command.ToggleDebug := by
  cases code <;> simp [navigate, getCmdList, KeyBinds.check] at h
  case Char c => split_ifs at h <;> simp_all

theorem getCmdList_insert {code : KeyCode} {cmd : Command}
    (h : getCmdList insert' code = some cmd) :
    cmd = Command.Enter Mode.Navigate ∨ cmd = Command.SendBuffer ∨
    (∃ m a, cmd = Command.MoveCaret m a) ∨ (∃ c, cmd = Command.Capture c) ∨
    (∃ o, cmd = Command.Del o) := by
  cases code <;> simp [insert', getCmdList, KeyBinds.check] at h
  case Char c => subst h; exact Or.inr (Or.inr (Or.inr (Or.inl ⟨c, rfl⟩)))
  case Esc => subst h; exact Or.inl rfl
  case Enter => subst h; exact Or.inr (Or.inl rfl)
  case Left => subst h; exact Or.inr (Or.inr (Or.inl ⟨_, _, rfl⟩))
  case Right => subst h; exact Or.inr (Or.inr (Or.inl ⟨_, _, rfl⟩))
  case Up => subst h; exact Or.inr (Or.inr (Or.inl ⟨_, _, rfl⟩))
  case Down => subst h; exact Or.inr (Or.inr (Or.inl ⟨_, _, rfl⟩))
  case Backspace => subst h; exact Or.inr (Or.inr (Or.inr (Or.inr ⟨_, rfl⟩)))
  case Delete => subst h; exact Or.inr (Or.inr (Or.inr (Or.inr ⟨_, rfl⟩)))

theorem getCmdList_insert_cmd {code : KeyCode} {cmd : Command}
    (h : getCmdList insert_cmd code = some cmd) :
    cmd = Command.AbortStagedCommand ∨ cmd = Command.SendStagedCommand ∨
    (∃ m a, cmd = Command.MoveCaret m a) ∨ (∃ c, cmd = Command.Capture c) ∨
    (∃ o, cmd = Command.Del o) := by
  cases code <;> simp [insert_cmd, getCmdList, KeyBinds.check] at h
  case Char c => subst h; exact Or.inr (Or.inr (Or.inr (Or.inl ⟨c, rfl⟩)))
  case Esc => subst h; exact Or.inl rfl
  case Enter => subst h; exact Or.inr (Or.inl rfl)
  case Left => subst h; exact Or.inr (Or.inr (Or.inl ⟨_, _, rfl⟩))
  case Right => subst h; exact Or.inr (Or.inr (Or.inl ⟨_, _, rfl⟩))
  case Up => subst h; exact Or.inr (Or.inr (Or.inl ⟨_, _, rfl⟩))
  case Down => subst h; exact Or.inr (Or.inr (Or.inl ⟨_, _, rfl⟩))
  case Backspace => subst h; exact Or.inr (Or.inr (Or.inr (Or.inr ⟨_, rfl⟩)))
  case Delete => subst h; exact Or.inr (Or.inr (Or.inr (Or.inr ⟨_, rfl⟩)))

theorem getCmdList_disocnnected {code : KeyCode} {cmd : Command}
    (h : getCmdList disocnnected code = some cmd) : cmd = Command.Quit := by
  cases code <;> simp [disocnnected, getCmdList, KeyBinds.check] at h
  case Char c => split_ifs at h <;> simp_all

theorem handle_mode_staged {app app' : App} {now : Nat} {cmd : Command}
    {evs : List Event}
    (hh : app.handle now cmd = some (app', evs))
    (hc : cmd = Command.Quit ∨ cmd = Command.Reset ∨
      (∃ c, cmd = Command.Capture c) ∨ (∃ o, cmd = Command.Del o) ∨
      (∃ m a, cmd = Command.MoveCaret m a) ∨ cmd = Command.SendBuffer ∨
      cmd = Command.GetServerTime ∨ cmd = Command.ToggleDebug) :
    app'.mode = app.mode ∧ app'.staged_command = app.staged_command := by
  rcases hc with rfl | rfl | ⟨c, rfl⟩ | ⟨o, rfl⟩ | ⟨m, a, rfl⟩ | rfl | rfl | rfl
  · simp only [App.handle, Option.some.injEq, Prod.mk.injEq] at hh
    obtain ⟨h1, -⟩ := hh
    subst h1
    exact ⟨rfl, rfl⟩
  · simp only [App.handle, Option.some.injEq, Prod.mk.injEq] at hh
    obtain ⟨h1, -⟩ := hh
    subst h1
    exact ⟨rfl, rfl⟩
  · simp only [App.handle] at hh
    cases hc2 : app.handle_capture c with
    | none => rw [hc2] at hh; simp at hh
    | some a =>
      rw [hc2] at hh
      simp only [Option.map_some', Option.some.injEq, Prod.mk.injEq] at hh
      obtain ⟨h1, -⟩ := hh
      subst h1
      exact handle_capture_frame hc2
  · simp only [App.handle] at hh
    cases hc2 : app.handle_deletion o with
    | none => rw [hc2] at hh; simp at hh
    | some a =>
      rw [hc2] at hh
      simp only [Option.map_some', Option.some.injEq, Prod.mk.injEq] at hh
      obtain ⟨h1, -⟩ := hh
      subst h1
      exact handle_deletion_frame hc2
  · simp only [App.handle, Option.some.injEq, Prod.mk.injEq] at hh
    obtain ⟨h1, -⟩ := hh
    subst h1
    exact handle_caret_move_frame app m a
  · simp only [App.handle, App.handle_send, Option.some.injEq, Prod.mk.injEq] at hh
    obtain ⟨h1, -⟩ := hh
    subst h1
    exact ⟨rfl, rfl⟩
  · simp only [App.handle] at hh
    cases hss : app.send_server_command now Command.GetServerTime with
    | none => rw [hss] at hh; simp at hh
    | some e =>
      rw [hss] at hh
      simp only [Option.map_some', Option.some.injEq, Prod.mk.injEq] at hh
      obtain ⟨h1, -⟩ := hh
      subst h1
      exact ⟨rfl, rfl⟩
  · simp only [App.handle, Option.some.injEq, Prod.mk.injEq] at hh
    obtain ⟨h1, -⟩ := hh
    subst h1
    exact ⟨rfl, rfl⟩

theorem key_preserves_staged_inv {app app' : App} {now : Nat}
    {cmd : Command} {evs : List Event} {code : KeyCode}
    (hinv : StagedInv app) (hmk : app.map_key code = some cmd)
    (hh : app.handle now cmd = some (app', evs)) : StagedInv app' := by
  obtain ⟨hi1, hi2⟩ := hinv
  unfold App.map_key ModalKeyMaps.get_cmd at hmk
  cases hmode : app.mode
  case Navigate =>
    rw [hmode] at hmk
    simp only [keys] at hmk
    have hstaged : app.staged_command = none := by
      cases hsc : app.staged_command with
      | none => rfl
      | some s =>
        have h2 := hi2 (by simp [hsc])
        rw [hmode] at h2
        rcases h2 with h2 | h2 <;> exact absurd h2 (by simp)
    rcases getCmdList_navigate hmk with rfl | rfl | rfl | rfl | rfl | rfl
    · simp only [App.handle, Option.some.injEq, Prod.mk.injEq] at hh
      obtain ⟨h1, -⟩ := hh
      subst h1
      obtain ⟨f1, f2⟩ := switch_mode_fields app Mode.Insert
      refine staged_inv_of_fields ?_ ?_
      · rw [f1]; simp
      · rw [f2, hstaged]
    · exact staged_inv_congr (handle_mode_staged hh (Or.inl rfl)).1
        (handle_mode_staged hh (Or.inl rfl)).2 ⟨hi1, hi2⟩
    · exact staged_inv_congr (handle_mode_staged hh (Or.inr (Or.inl rfl))).1
        (handle_mode_staged hh (Or.inr (Or.inl rfl))).2 ⟨hi1, hi2⟩
    · exact staged_inv_congr
        (handle_mode_staged hh (Or.inr (Or.inr (Or.inr (Or.inr (Or.inr (Or.inr (Or.inl rfl)))))))).1
        (handle_mode_staged hh (Or.inr (Or.inr (Or.inr (Or.inr (Or.inr (Or.inr (Or.inl rfl)))))))).2
        ⟨hi1, hi2⟩
    · simp only [App.handle, Option.some.injEq, Prod.mk.injEq] at hh
      obtain ⟨h1, -⟩ := hh
      subst h1
      obtain ⟨f1, f2⟩ :=
        switch_mode_fields { app with staged_command := some (Command.MoveRooms none) } Mode.InsertCommand
      refine staged_inv_of_staged f1 ?_
      rw [f2]
      rfl
    · exact staged_inv_congr
        (handle_mode_staged hh (Or.inr (Or.inr (Or.inr (Or.inr (Or.inr (Or.inr (Or.inr rfl)))))))).1
        (handle_mode_staged hh (Or.inr (Or.inr (Or.inr (Or.inr (Or.inr (Or.inr (Or.inr rfl)))))))).2
        ⟨hi1, hi2⟩
  case Insert =>
    rw [hmode] at hmk
    simp only [keys] at hmk
    have hstaged : app.staged_command = none := by
      cases hsc : app.staged_command with
      | none => rfl
      | some s =>
        have h2 := hi2 (by simp [hsc])
        rw [hmode] at h2
        rcases h2 with h2 | h2 <;> exact absurd h2 (by simp)
    rcases getCmdList_insert hmk with rfl | rfl | ⟨m, a, rfl⟩ | ⟨c, rfl⟩ | ⟨o, rfl⟩
    · simp only [App.handle, Option.some.injEq, Prod.mk.injEq] at hh
      obtain ⟨h1, -⟩ := hh
      subst h1
      obtain ⟨f1, f2⟩ := switch_mode_fields app Mode.Navigate
      refine staged_inv_of_fields ?_ ?_
      · rw [f1]; simp
      · rw [f2, hstaged]
    · exact staged_inv_congr
        (handle_mode_staged hh (Or.inr (Or.inr (Or.inr (Or.inr (Or.inr (Or.inl rfl))))))).1
        (handle_mode_staged hh (Or.inr (Or.inr (Or.inr (Or.inr (Or.inr (Or.inl rfl))))))).2
        ⟨hi1, hi2⟩
    · exact staged_inv_congr
        (handle_mode_staged hh (Or.inr (Or.inr (Or.inr (Or.inr (Or.inl ⟨m, a, rfl⟩)))))).1
        (handle_mode_staged hh (Or.inr (Or.inr (Or.inr (Or.inr (Or.inl ⟨m, a, rfl⟩)))))).2
        ⟨hi1, hi2⟩
    · exact staged_inv_congr
        (handle_mode_staged hh (Or.inr (Or.inr (Or.inl ⟨c, rfl⟩)))).1
        (handle_mode_staged hh (Or.inr (Or.inr (Or.inl ⟨c, rfl⟩)))).2
        ⟨hi1, hi2⟩
    · exact staged_inv_congr
        (handle_mode_staged hh (Or.inr (Or.inr (Or.inr (Or.inl ⟨o, rfl⟩))))).1
        (handle_mode_staged hh (Or.inr (Or.inr (Or.inr (Or.inl ⟨o, rfl⟩))))).2
        ⟨hi1, hi2⟩
  case InsertCommand =>
    rw [hmode] at hmk
    simp only [keys] at hmk
    rcases getCmdList_insert_cmd hmk with rfl | rfl | ⟨m, a, rfl⟩ | ⟨c, rfl⟩ | ⟨o, rfl⟩
    · simp only [App.handle, Option.some.injEq, Prod.mk.injEq] at hh
      obtain ⟨h1, -⟩ := hh
      subst h1
      obtain ⟨f1, f2⟩ := handle_abort_fields app
      refine staged_inv_of_fields ?_ f2
      rw [f1]
      simp
    · simp only [App.handle, App.handle_send_staged_command] at hh
      split at hh
      · simp only [Option.some.injEq, Prod.mk.injEq] at hh
        obtain ⟨h1, -⟩ := hh
        subst h1
        exact staged_inv_congr rfl rfl ⟨hi1, hi2⟩
      · split at hh
        · exact absurd hh (by simp)
        · simp only [Option.some.injEq, Prod.mk.injEq] at hh
          obtain ⟨h1, -⟩ := hh
          subst h1
          obtain ⟨f1, f2⟩ := switch_mode_fields _ Mode.Navigate
          refine staged_inv_of_fields ?_ ?_
          · rw [f1]; simp
          · rw [f2]
    · exact staged_inv_congr
        (handle_mode_staged hh (Or.inr (Or.inr (Or.inr (Or.inr (Or.inl ⟨m, a, rfl⟩)))))).1
        (handle_mode_staged hh (Or.inr (Or.inr (Or.inr (Or.inr (Or.inl ⟨m, a, rfl⟩)))))).2
        ⟨hi1, hi2⟩
    · exact staged_inv_congr
        (handle_mode_staged hh (Or.inr (Or.inr (Or.inl ⟨c, rfl⟩)))).1
        (handle_mode_staged hh (Or.inr (Or.inr (Or.inl ⟨c, rfl⟩)))).2
        ⟨hi1, hi2⟩
    · exact staged_inv_congr
        (handle_mode_staged hh (Or.inr (Or.inr (Or.inr (Or.inl ⟨o, rfl⟩))))).1
        (handle_mode_staged hh (Or.inr (Or.inr (Or.inr (Or.inl ⟨o, rfl⟩))))).2
        ⟨hi1, hi2⟩
  case Disconnected =>
    rw [hmode] at hmk
    simp only [keys] at hmk
    have hq := getCmdList_disocnnected hmk
    subst hq
    exact staged_inv_congr (handle_mode_staged hh (Or.inl rfl)).1
      (handle_mode_staged hh (Or.inl rfl)).2 ⟨hi1, hi2⟩

theorem push_debug_log_frame (app : App) (now : Nat) (r : RStr) :
    (app.push_debug_log now r).mode = app.mode ∧
    (app.push_debug_log now r).staged_command = app.staged_command :=
  ⟨rfl, rfl⟩

theorem store_token_frame (app : App) (t : String) :
    (app.store_token t).mode = app.mode ∧
    (app.store_token t).staged_command = app.staged_command :=
  ⟨rfl, rfl⟩

theorem replace_logs_frame (app : App) (ls : List Log) :
    (app.replace_logs ls).mode = app.mode ∧
    (app.replace_logs ls).staged_command = app.staged_command := by
  unfold App.replace_logs
  obtain ⟨h1, h2⟩ := foldl_push_log_frame ls { app with logs := [] }
  exact ⟨h1, h2⟩

theorem update_preserves_staged_inv {codec : Codec} {now : Nat} {app app' : App}
    {event : Event} {evs : List Event}
    (hinv : StagedInv app) (h : update codec now app event = some (app', evs)) :
    StagedInv app' := by
  cases event
  case Key code =>
    simp only [update] at h
    cases hmk : app.map_key code with
    | none =>
      rw [hmk] at h
      simp only [Option.some.injEq, Prod.mk.injEq] at h
      obtain ⟨h1, -⟩ := h
      subst h1
      exact hinv
    | some cmd =>
      rw [hmk] at h
      exact key_preserves_staged_inv hinv hmk h
  case ServerClose =>
    simp only [update, Option.some.injEq, Prod.mk.injEq] at h
    obtain ⟨h1, -⟩ := h
    subst h1
    exact staged_inv_of_disc (switch_mode_fields (app.push_log _) Mode.Disconnected).1
  case Recv msg =>
    simp only [update] at h
    split at h
    · split at h
      · simp only [Option.some.injEq, Prod.mk.injEq] at h
        obtain ⟨h1, -⟩ := h
        subst h1
        refine staged_inv_congr ?_ ?_ hinv
        · exact (push_log_frame _ _).1
        · exact (push_log_frame _ _).2
      · simp only [Option.some.injEq, Prod.mk.injEq] at h
        obtain ⟨h1, -⟩ := h
        subst h1
        refine staged_inv_congr ?_ ?_ hinv
        · exact (push_log_frame _ _).1
        · exact (push_log_frame _ _).2
      · split at h
        · simp only [Option.some.injEq, Prod.mk.injEq] at h
          obtain ⟨h1, -⟩ := h
          subst h1
          refine staged_inv_congr ?_ ?_ hinv
          · exact (store_token_frame _ _).1
          · exact (store_token_frame _ _).2
        · simp only [Option.some.injEq, Prod.mk.injEq] at h
          obtain ⟨h1, -⟩ := h
          subst h1
          refine staged_inv_congr ?_ ?_ hinv
          · exact (push_log_frame _ _).1
          · exact (push_log_frame _ _).2
        · simp only [Option.some.injEq, Prod.mk.injEq] at h
          obtain ⟨h1, -⟩ := h
          subst h1
          refine staged_inv_congr ?_ ?_ hinv
          · exact (push_log_frame _ _).1
          · exact (push_log_frame _ _).2
        · simp only [Option.some.injEq, Prod.mk.injEq] at h
          obtain ⟨h1, -⟩ := h
          subst h1
          refine staged_inv_congr ?_ ?_ hinv
          · exact (replace_logs_frame _ _).1
          · exact (replace_logs_frame _ _).2
    · simp only [Option.some.injEq, Prod.mk.injEq] at h
      obtain ⟨h1, -⟩ := h
      subst h1
      refine staged_inv_congr ?_ ?_ hinv
      · exact (push_log_frame _ _).1
      · exact (push_log_frame _ _).2
  all_goals
    simp only [update, Option.some.injEq, Prod.mk.injEq] at h
    obtain ⟨h1, -⟩ := h
    subst h1
    exact hinv

/-- Claim C4 (amended): in every reachable state, mode `InsertCommand` implies a
staged command is present; conversely a staged command implies the mode is
`InsertCommand` or `Disconnected` (a `ServerClose` arriving while staging
switches to `Disconnected` without clearing the staged command). -/
theorem staged_command_reach_invariant (username : String) (app : App)
    (h : Reach username app) : StagedInv app := by
  induction h with
  | init =>
    constructor
    · intro hm
      simp [App.new] at hm
    · intro hs
      simp [App.new] at hs
  | step codec now event a a' evs _ hupd ih =>
    exact update_preserves_staged_inv ih hupd
  | set_shared_secret a key _ ih => exact staged_inv_congr rfl rfl ih
  | set_token a tok _ ih => exact staged_inv_congr rfl rfl ih
  | set_send_chan a _ ih => exact staged_inv_congr rfl rfl ih

/-- Witness for `staged_command_reach_invariant` at the initial state. -/
theorem staged_command_reach_invariant_witness : StagedInv (App.new "u") :=
  staged_command_reach_invariant "u" (App.new "u") Reach.init

/-- Claim C4 counterexample: pressing 'm' in Navigate stages `MoveRooms(None)`
(mode `InsertCommand`), and a `ServerClose` then reaches a state whose
mode is `Disconnected` while `staged_command` is still `Some` — the
claimed iff fails on a reachable state. -/
theorem staged_iff_counterexample :
    Reach "u" appStagedDisc ∧ appStagedDisc.staged_command.isSome = true ∧
    appStagedDisc.mode ≠ Mode.InsertCommand := by
  refine ⟨?_, rfl, by decide⟩
  have h1 : Reach "u" appStagedIC :=
    Reach.step trivialCodec 0 (Event.Key (KeyCode.Char 'm')) (App.new "u")
      appStagedIC [] Reach.init (by decide)
  exact Reach.step trivialCodec 0 Event.ServerClose appStagedIC
    appStagedDisc [] h1 (by decide)

/-- Claim C9: when the token or the command sink is absent, SendBuffer and
GetServerTime emit nothing and add no log entry; SendBuffer still resets
the buffer to one empty line with caret (1,1) — the message is silently
discarded with apparent success. -/
theorem send_paths_silently_drop (app : App) (now : Nat)
    (h : app.token = none ∨ app.command_sink = false) :
    app.handle now Command.SendBuffer =
      some ({ app with buffer := [[]], caret_offset := (1, 1) }, []) ∧
    app.handle now Command.GetServerTime = some (app, []) := by
  rcases h with h | h
  · refine ⟨?_, ?_⟩ <;>
      simp only [App.handle, App.handle_send, App.send_server_command, h] <;>
      cases hcs : app.command_sink <;> rfl
  · refine ⟨?_, ?_⟩ <;>
      simp only [App.handle, App.handle_send, App.send_server_command, h] <;>
      first
        | rfl
        | (cases htk : app.token <;> rfl)

/-- Witness for `send_paths_silently_drop`: the fresh `App` has no token
and no sink. -/
theorem send_paths_silently_drop_witness :
    App.handle (App.new "u") 0 Command.SendBuffer =
      some ({ App.new "u" with buffer := [[]], caret_offset := (1, 1) }, []) ∧
    App.handle (App.new "u") 0 Command.GetServerTime = some (App.new "u", []) :=
  send_paths_silently_drop (App.new "u") 0 (Or.inl rfl)

/-- Claim C5 (amended): in Insert mode with token and sink present, SendBuffer
emits exactly one chat intent carrying token, username, timestamp and the
concatenation of all buffer lines, and resets buffer and caret — but the
mode is left unchanged (still Insert); no transition to Navigate occurs. -/
theorem send_buffer_emits_and_keeps_mode (app : App) (now : Nat) (tok : String)
    (hmode : app.mode = Mode.Insert) (htok : app.token = some tok)
    (hsink : app.command_sink = true) :
    app.handle now Command.SendBuffer =
      some ({ app with buffer := [[]], caret_offset := (1, 1) },
            [Event.Send tok app.username now app.buffer.flatten]) := by
  simp only [App.handle, App.handle_send, htok, hsink, Log.new,
    render_buf_eq_flatten]

/-- Witness for `send_buffer_emits_and_keeps_mode`. -/
theorem send_buffer_emits_and_keeps_mode_witness :
    App.handle appInsertReady 0 Command.SendBuffer =
      some ({ appInsertReady with buffer := [[]], caret_offset := (1, 1) },
            [Event.Send "tok" "alice" 0 ['h', 'i']]) := by
  have h := send_buffer_emits_and_keeps_mode appInsertReady 0 "tok" rfl rfl rfl
  rw [h]
  rfl

/-- Claim C5 counterexample: after SendBuffer from Insert mode (token and sink
present) the mode is still `Insert`, not `Navigate` as the claim states. -/
theorem send_buffer_does_not_enter_navigate :
    (App.handle appInsertReady 0 Command.SendBuffer).map (fun p => p.1.mode) =
      some Mode.Insert ∧ Mode.Insert ≠ Mode.Navigate := by
  exact ⟨rfl, by decide⟩

/-- Claim C7 (amended): with the caret at a boundary column `col ≤` the line's
byte length, Capture(ch) rewrites the line to (first `col` bytes) ++ ch ++
remainder — the insertion point is byte offset `col`, one position to the
right of the claimed `col − 1` — and the caret column grows by exactly 1.
(For `col` = byte length the character is appended at the end, which the
same split formula covers with an empty remainder.) -/
theorem capture_inserts_after_caret_byte (app : App) (ch : Char)
    (row col : Nat) (line pre post : RStr)
    (hcaret : app.caret_offset = (row, col))
    (hline : app.buffer.getD (row - 1) [] = line)
    (hcol : col ≤ byteLen line)
    (hsplit : splitAtByte line col = some (pre, post)) :
    app.handle_state 0 (Command.Capture ch) =
      some { app with buffer := app.buffer.set (row - 1) (pre ++ ch :: post),
                      caret_offset := (row, col + 1) } := by
  rw [handle_state_capture]
  exact capture_shape app ch row col line pre post hcaret hline hcol hsplit

/-- Witness for `capture_inserts_after_caret_byte` on line "ab", caret
(1,1): capture of 'x' yields "axb" with caret (1,2). -/
theorem capture_inserts_after_caret_byte_witness :
    App.handle_state appAB 0 (Command.Capture 'x') =
      some { appAB with buffer := [['a', 'x', 'b']], caret_offset := (1, 2) } := by
  have h := capture_inserts_after_caret_byte appAB 'x' 1 1 ['a', 'b'] ['a'] ['b']
    rfl rfl (by decide) (by decide)
  rw [h]
  rfl

/-- Claim C7 counterexample: from line "ab" with caret (1,1), Capture 'x' yields
"axb"; the claim's "first (col − 1) characters, then ch, then the
remainder" would be "xab". -/
theorem capture_position_counterexample :
    (App.handle_state appAB 0 (Command.Capture 'x')).map (fun a => a.buffer) =
      some [['a', 'x', 'b']] ∧
    some [['a', 'x', 'b']] ≠ some [['x', 'a', 'b']] := by
  exact ⟨rfl, by decide⟩

/-- Claim C10 (code bug): the editing commands are not total — capturing the
two-byte character 'é', moving the caret one byte-column left and
capturing again makes `String::split_off` panic on a non-boundary byte
index (modelled by `none`). -/
theorem multibyte_capture_panics :
    applyEdits 0 (App.new "u")
      [Command.Capture 'é', Command.MoveCaret CaretMotion.Character (-1),
       Command.Capture 'z'] = none := by
  decide

/-- Claim C3 (code bug): mid-session, the receive path hands the raw frame bytes
straight to deserialization — `update` processes `Event::Recv [1,2]` by
deserializing `[1,2]` itself, although the spec-modelled CBC decryption of
that frame under the stored secret yields different bytes (and `update`
never consults `shared_secret` at all: `Tui::decrypt_incoming_msg` has no
caller). -/
theorem recv_path_skips_decryption :
    update codecX 9 appMidSession (Event.Recv [1, 2]) =
      some ((appMidSession.push_debug_log 9 []).push_log
              ((Log.new 9 "bob" ['h', 'i']).at' 5), []) ∧
    specCbcDecode secretK [1, 2] = some [3] ∧ ([3] : List Nat) ≠ [1, 2] := by
  refine ⟨rfl, rfl, by decide⟩

/-! ### Log ring -/

theorem log_count_eq_length_of_nondebug {app : App}
    (h : ∀ l ∈ app.logs, l.debug = false) : app.log_count = app.logs.length := by
  unfold App.log_count
  have hf : app.logs.filter (fun l => l.should_render app.show_debug) = app.logs := by
    rw [List.filter_eq_self]
    intro a ha
    simp [Log.should_render, h a ha]
  rw [hf]

theorem push_log_good {app : App} {log : Log} (happ : GoodLogState app)
    (hlog : log.debug = false) : GoodLogState (app.push_log log) := by
  obtain ⟨hall, hlen⟩ := happ
  have hall1 : ∀ l ∈ log :: app.logs, l.debug = false := by
    intro l hl
    rcases List.mem_cons.mp hl with h | h
    · subst h; exact hlog
    · exact hall l h
  simp only [App.push_log]
  split
  · constructor
    · intro l hl
      exact hall1 l (List.dropLast_subset _ hl)
    · have hd : (log :: app.logs).dropLast.length = (log :: app.logs).length - 1 :=
        List.length_dropLast _
      simp only [List.length_cons] at hd
      simp only [hd]
      omega
  · constructor
    · exact hall1
    · rename_i hnot
      have hcnt : App.log_count { app with logs := log :: app.logs } =
          (log :: app.logs).length :=
        log_count_eq_length_of_nondebug hall1
      rw [hcnt] at hnot
      simp only [List.length_cons] at hnot
      simp only [List.length_cons]
      omega

theorem foldl_push_log_good {ls : List Log} :
    ∀ {app : App}, GoodLogState app → (∀ l ∈ ls, l.debug = false) →
      GoodLogState (ls.foldl App.push_log app) := by
  induction ls with
  | nil =>
    intro app h _
    simpa using h
  | cons x xs ih =>
    intro app h hx
    simp only [List.foldl_cons]
    exact ih (push_log_good h (hx x (by simp))) (fun l hl => hx l (by simp [hl]))

theorem applyLogOp_good {app : App} {op : LogOp} (happ : GoodLogState app)
    (hop : goodLogOp op = true) : GoodLogState (applyLogOp app op) := by
  cases op with
  | push log =>
    exact push_log_good happ (by simpa [goodLogOp] using hop)
  | pushDebug now r => simp [goodLogOp] at hop
  | replace ls =>
    refine foldl_push_log_good ⟨?_, ?_⟩ ?_
    · intro l hl
      simp at hl
    · simp
    · intro l hl
      have hh : ∀ x ∈ ls, x.debug = false := by simpa [goodLogOp] using hop
      exact hh l hl
  | toggle => exact ⟨happ.1, happ.2⟩

theorem applyLogOps_good {ops : List LogOp} :
    ∀ {app : App}, GoodLogState app → (∀ op ∈ ops, goodLogOp op = true) →
      GoodLogState (applyLogOps app ops) := by
  induction ops with
  | nil =>
    intro app h _
    simpa [applyLogOps] using h
  | cons x xs ih =>
    intro app h hx
    simp only [applyLogOps, List.foldl_cons]
    exact ih (applyLogOp_good h (hx x (by simp))) (fun o ho => hx o (by simp [ho]))

/-- Claim C2 (amended): restricted to operations on non-debug entries (push_log
of a non-debug log, replace_logs with non-debug entries, ToggleDebug), the
visible count stays at most 100 after every prefix of the sequence, and a
push against a full ring of 100 evicts exactly the oldest entry.  The
claim as stated fails because `push_debug_log` never evicts (see the
counterexample) and because `push_log`'s single `pop_back` may remove a
hidden debug entry without reducing the visible count. -/
theorem log_ring_visible_bound (app : App) (ops : List LogOp)
    (happ : GoodLogState app) (hops : ∀ op ∈ ops, goodLogOp op = true) :
    (∀ k : Nat, App.log_count (applyLogOps app (ops.take k)) ≤ 100) ∧
    (∀ log : Log, log.debug = false → app.logs.length = 100 →
      (app.push_log log).logs = log :: app.logs.dropLast) := by
  constructor
  · intro k
    have hg : GoodLogState (applyLogOps app (ops.take k)) :=
      applyLogOps_good happ (fun op ho => hops op (List.take_subset k ops ho))
    rw [log_count_eq_length_of_nondebug hg.1]
    exact hg.2
  · intro log hlog hlen
    have hall1 : ∀ l ∈ log :: app.logs, l.debug = false := by
      intro l hl
      rcases List.mem_cons.mp hl with h | h
      · subst h; exact hlog
      · exact happ.1 l h
    have hcnt : App.log_count { app with logs := log :: app.logs } =
        (log :: app.logs).length :=
      log_count_eq_length_of_nondebug hall1
    simp only [App.push_log]
    rw [if_pos (by rw [hcnt]; simp [hlen])]
    cases hl0 : app.logs with
    | nil => rw [hl0] at hlen; simp at hlen
    | cons y ys => simp

/-- Witness for `log_ring_visible_bound`: one push and a toggle from the
fresh state keep the visible count within the bound. -/
theorem log_ring_visible_bound_witness :
    App.log_count (applyLogOps (App.new "u") ([LogOp.push nlog, LogOp.toggle].take 2)) ≤ 100 :=
  (log_ring_visible_bound (App.new "u") [LogOp.push nlog, LogOp.toggle]
    (by constructor <;> simp [App.new]) (by decide)).1 2

/-- Claim C2 counterexample: with the debug flag on, 100 ordinary pushes followed
by a single `push_debug_log` leave 101 visible entries — `push_debug_log`
performs no eviction. -/
theorem log_ring_overflow_counterexample :
    100 < App.log_count (applyLogOps (App.new "u") overflowOps) := by
  decide

/-! ### Caret invariant preservation (single-line buffers) -/

theorem handle_capture_single {app app' : App} {l : RStr} {c : Char}
    (hb : app.buffer = [l]) (hrow : app.caret_offset.1 = 1)
    (hcol1 : 1 ≤ app.caret_offset.2) (hcol2 : app.caret_offset.2 ≤ byteLen l + 1)
    (h : app.handle_capture c = some app') :
    CaretInv app' ∧ app'.buffer.length = 1 := by
  have hline : app.buffer.getD (app.caret_offset.1 - 1) [] = l := by
    rw [hb, hrow]
    rfl
  simp only [App.handle_capture] at h
  rw [hline] at h
  simp only [hrow, hb] at h
  have hw := utf8Width_pos c
  split at h
  case isTrue hlt =>
    cases hsp : splitAtByte l app.caret_offset.2 with
    | none => rw [hsp] at h; simp at h
    | some p =>
      obtain ⟨pre, post⟩ := p
      rw [hsp] at h
      simp only [Option.some.injEq] at h
      subst h
      obtain ⟨hpp, hbp⟩ := splitAtByte_eq l _ _ _ hsp
      have hby : byteLen (pre ++ [c] ++ post) =
          byteLen pre + utf8Width c + byteLen post := by
        rw [byteLen_append, byteLen_append, byteLen_cons, byteLen_nil]
        omega
      constructor
      · unfold CaretInv
        simp only [Nat.sub_self, List.set_cons_zero, List.getD_cons_zero,
          List.length_singleton, ne_eq]
        refine ⟨by simp, by omega, by omega, by omega, by omega⟩
      · simp
  case isFalse hge =>
    simp only [Option.some.injEq] at h
    subst h
    have hby : byteLen (l ++ [c]) = byteLen l + utf8Width c := by
      rw [byteLen_append, byteLen_cons, byteLen_nil]
      omega
    constructor
    · unfold CaretInv
      simp only [Nat.sub_self, List.set_cons_zero, List.getD_cons_zero,
        List.length_singleton, ne_eq]
      refine ⟨by simp, by omega, by omega, by omega, by omega⟩
    · simp

theorem handle_caret_move_single {app : App} {l : RStr} (hb : app.buffer = [l])
    (motion : CaretMotion) (amount : Int) :
    CaretInv (app.handle_caret_move motion amount) ∧
    (app.handle_caret_move motion amount).buffer.length = 1 := by
  simp only [App.handle_caret_move]
  rw [set_caret_2d_single hb]
  constructor
  · unfold CaretInv
    simp only [hb, List.getD_cons_zero, List.length_singleton]
    exact ⟨by simp, le_refl 1, le_refl 1,
      clampNat_ge _ 1 _ (by omega), clampNat_le _ 1 _⟩
  · simp [hb]

theorem handle_deletion_single {app app' : App} {l : RStr} {offset : Int}
    (hb : app.buffer = [l]) (hrow : app.caret_offset.1 = 1)
    (hcol1 : 1 ≤ app.caret_offset.2) (hcol2 : app.caret_offset.2 ≤ byteLen l + 1)
    (h : app.handle_deletion offset = some app') :
    CaretInv app' ∧ app'.buffer.length = 1 := by
  have hline : app.buffer.getD (app.caret_offset.1 - 1) [] = l := by
    rw [hb, hrow]
    rfl
  simp only [App.handle_deletion, App.split_current_at_caret] at h
  rw [hline] at h
  by_cases hpos : 0 < byteLen l
  case pos =>
    rw [if_pos hpos] at h
    cases hsp : splitAtByte l (app.caret_offset.2 - 1) with
    | none => rw [hsp] at h; simp at h
    | some p =>
      obtain ⟨pre, post⟩ := p
      rw [hsp] at h
      obtain ⟨hpp, hbp⟩ := splitAtByte_eq l _ _ _ hsp
      have hlen_split : byteLen l = byteLen pre + byteLen post := by
        rw [hpp, byteLen_append]
      simp only at h
      by_cases hoff : offset < 0
      · rw [if_pos hoff] at h
        by_cases hpre : 1 ≤ byteLen pre
        · rw [if_pos hpre] at h
          rw [set_caret_2d_single hb] at h
          simp only [hrow, Nat.sub_self, Option.some.injEq] at h
          subst h
          have hclamp : clampNat (app.caret_offset.2 - 1) 1 (byteLen l + 1) =
              app.caret_offset.2 - 1 := by
            apply clampNat_eq_self <;> omega
          have ht := byteLen_take_ge pre (byteLen pre - 1)
          have hbY : byteLen (pre.take (byteLen pre - 1) ++ post) =
              byteLen (pre.take (byteLen pre - 1)) + byteLen post :=
            byteLen_append _ _
          constructor
          · unfold CaretInv
            simp only [hb, Nat.sub_self, List.set_cons_zero, List.getD_cons_zero,
              List.length_singleton, ne_eq, hclamp]
            refine ⟨by simp, by omega, by omega, by omega, by omega⟩
          · simp [hb]
        · rw [if_neg hpre] at h
          simp only [hrow, Nat.sub_self, Option.some.injEq] at h
          subst h
          constructor
          · unfold CaretInv
            simp only [hb, Nat.sub_self, List.set_cons_zero, List.getD_cons_zero,
              List.length_singleton, ne_eq, hrow]
            refine ⟨by simp, by omega, by omega, by omega, ?_⟩
            rw [← hpp]
            omega
          · simp [hb]
      · rw [if_neg hoff] at h
        by_cases hpost : 1 ≤ byteLen post
        · rw [if_pos hpost] at h
          simp only [hrow, Nat.sub_self, Option.some.injEq] at h
          subst h
          have hbY : byteLen (pre ++ post.drop 1) =
              byteLen pre + byteLen (post.drop 1) := byteLen_append _ _
          constructor
          · unfold CaretInv
            simp only [hb, Nat.sub_self, List.set_cons_zero, List.getD_cons_zero,
              List.length_singleton, ne_eq, hrow]
            refine ⟨by simp, by omega, by omega, by omega, by omega⟩
          · simp [hb]
        · rw [if_neg hpost] at h
          simp only [hrow, Nat.sub_self, Option.some.injEq] at h
          subst h
          constructor
          · unfold CaretInv
            simp only [hb, Nat.sub_self, List.set_cons_zero, List.getD_cons_zero,
              List.length_singleton, ne_eq, hrow]
            refine ⟨by simp, by omega, by omega, by omega, ?_⟩
            rw [← hpp]
            omega
          · simp [hb]
  case neg =>
    have hl00 : byteLen l = 0 := by omega
    have hl0 : l = [] := byteLen_eq_zero hl00
    subst hl0
    rw [if_neg hpos] at h
    simp only [byteLen_nil, hrow, Nat.sub_self, List.nil_append] at h
    by_cases hoff : offset < 0
    all_goals
      first
        | rw [if_pos hoff] at h
        | rw [if_neg hoff] at h
    all_goals
      rw [if_neg (by omega)] at h
      simp only [Option.some.injEq] at h
      subst h
      refine ⟨?_, by simp [hb]⟩
      unfold CaretInv
      simp only [hb, Nat.sub_self, List.set_cons_zero, List.getD_cons_zero,
        List.length_singleton, ne_eq, hrow]
      refine ⟨by simp, by omega, by omega, by omega, by omega⟩

theorem edit_step_preserves {app app' : App} {cmd : Command} {now : Nat}
    (hinv : CaretInv app) (hone : app.buffer.length = 1)
    (hedit : isEditCmd cmd = true)
    (hstep : app.handle_state now cmd = some app') :
    CaretInv app' ∧ app'.buffer.length = 1 := by
  obtain ⟨l, hb⟩ := List.length_eq_one.mp hone
  obtain ⟨hne, hr1, hr2, hc1, hc2⟩ := hinv
  have hrow : app.caret_offset.1 = 1 := by
    rw [hb] at hr2
    simp at hr2
    omega
  have hl : app.buffer.getD (app.caret_offset.1 - 1) [] = l := by
    rw [hb, hrow]
    rfl
  have hc2' : app.caret_offset.2 ≤ byteLen l + 1 := by
    rw [hl] at hc2
    exact hc2
  cases cmd
  case Capture c =>
    rw [handle_state_capture] at hstep
    exact handle_capture_single hb hrow hc1 hc2' hstep
  case Del o =>
    rw [handle_state_del] at hstep
    exact handle_deletion_single hb hrow hc1 hc2' hstep
  case MoveCaret m a =>
    rw [handle_state_move] at hstep
    simp only [Option.some.injEq] at hstep
    subst hstep
    exact handle_caret_move_single hb m a
  all_goals simp [isEditCmd] at hedit

/-- Claim C1 (amended): for every App whose buffer is a single line and whose
caret satisfies the invariant, any sequence of Capture/Del/MoveCaret
commands applied via `App::handle` preserves the invariant at every step
that completes without panicking, and the buffer stays a single (non-empty
list of) line.  The claim as stated — over every invariant-satisfying
state, including multi-line buffers — is false: see the counterexample,
where `set_caret_2d` clamps the column against the line at index
`(row − 1) mod len` computed from the unclamped row. -/
theorem caret_invariant_preserved (app : App) (cmds : List Command) (now : Nat)
    (hinv : CaretInv app) (hone : app.buffer.length = 1)
    (hedits : ∀ c ∈ cmds, isEditCmd c = true) :
    ∀ (k : Nat) (app' : App), applyEdits now app (cmds.take k) = some app' →
      CaretInv app' ∧ app'.buffer.length = 1 := by
  induction cmds generalizing app with
  | nil =>
    intro k app' h
    simp only [List.take_nil, applyEdits, Option.some.injEq] at h
    subst h
    exact ⟨hinv, hone⟩
  | cons c cs ih =>
    intro k app' h
    cases k with
    | zero =>
      simp only [List.take_zero, applyEdits, Option.some.injEq] at h
      subst h
      exact ⟨hinv, hone⟩
    | succ k =>
      rw [List.take_succ_cons] at h
      simp only [applyEdits] at h
      cases hst : app.handle_state now c with
      | none => rw [hst] at h; simp at h
      | some a1 =>
        rw [hst] at h
        have h1 := edit_step_preserves hinv hone (hedits c (by simp)) hst
        exact ih a1 h1.1 h1.2 (fun x hx => hedits x (by simp [hx])) k app' h

/-- Witness for `caret_invariant_preserved`: capture, move left, delete
from the fresh single-line App lands back on the initial state, and the
invariant holds. -/
theorem caret_invariant_preserved_witness :
    applyEdits 0 (App.new "u") (c1Cmds.take 3) = some (App.new "u") ∧
    CaretInv (App.new "u") ∧ (App.new "u").buffer.length = 1 := by
  have happ : applyEdits 0 (App.new "u") (c1Cmds.take 3) = some (App.new "u") := by
    decide
  exact ⟨happ,
    caret_invariant_preserved (App.new "u") c1Cmds 0 (by decide) (by decide)
      (by decide) 3 (App.new "u") happ⟩

/-- Claim C1 counterexample: from the two-line buffer ["abcd", ""] with caret
(1,5) — a state satisfying the invariant — MoveCaret(Line, +2) puts the
caret at (2,5) although line 2 is empty, because the column is clamped
against line (3−1) mod 2 = 0 ("abcd") instead of the resulting row's
line. -/
theorem caret_invariant_counterexample :
    CaretInv appTwoLines ∧
    App.handle_state appTwoLines 0 (Command.MoveCaret CaretMotion.Line 2) =
      some appTwoLinesAfter ∧
    ¬ CaretInv appTwoLinesAfter := by
  refine ⟨by decide, by decide, by decide⟩

/-- Claim C6 (amended): when the caret column is at most the current line's byte
length and on a character boundary, Capture(c) followed by Del(0) restores
the buffer exactly — but the caret column ends at one more than its
pre-capture value; the claimed restoration of the caret column never
happens, and past the end of the line even the content is not restored
(see the counterexample). -/
theorem capture_del_restores_line (app : App) (ch : Char) (row col : Nat)
    (line : RStr)
    (hcaret : app.caret_offset = (row, col))
    (hrow1 : 1 ≤ row) (hrow2 : row ≤ app.buffer.length)
    (hline : app.buffer.getD (row - 1) [] = line)
    (hcol1 : 1 ≤ col) (hcol2 : col ≤ byteLen line)
    (hbound : isByteBoundary line col = true) :
    applyEdits 0 app [Command.Capture ch, Command.Del 0] =
      some { app with caret_offset := (row, col + 1) } := by
  obtain ⟨⟨pre, post⟩, hsp⟩ := Option.isSome_iff_exists.mp hbound
  obtain ⟨hpp, hbp⟩ := splitAtByte_eq line _ _ _ hsp
  have hcap := capture_shape app ch row col line pre post hcaret hline hcol2 hsp
  have hw := utf8Width_pos ch
  have hlen1 : row - 1 < app.buffer.length := by omega
  have hdel : App.handle_deletion
      { app with buffer := app.buffer.set (row - 1) (pre ++ ch :: post),
                 caret_offset := (row, col + 1) } 0 =
      some { app with caret_offset := (row, col + 1) } := by
    have hline1 :
        (app.buffer.set (row - 1) (pre ++ ch :: post)).getD (row - 1) [] =
          pre ++ ch :: post :=
      getD_set_self _ _ _ _ hlen1
    have hpos1 : 0 < byteLen (pre ++ ch :: post) := by
      rw [byteLen_append, byteLen_cons]
      omega
    have hoff : ¬ ((0 : Int) < 0) := by omega
    have hpost1 : 1 ≤ byteLen (ch :: post) := by
      rw [byteLen_cons]
      omega
    have hsplit2 : splitAtByte (pre ++ ch :: post) col = some (pre, ch :: post) := by
      conv_lhs => rw [← hbp]
      exact splitAtByte_append pre (ch :: post)
    simp only [App.handle_deletion, App.split_current_at_caret, hline1,
      Nat.add_sub_cancel, if_pos hpos1, hsplit2, if_neg hoff, if_pos hpost1,
      show (ch :: post).drop 1 = post from rfl, List.set_set]
    rw [← hpp, ← hline, set_getD_self _ _ _ hlen1]
  simp only [applyEdits, handle_state_capture, handle_state_del, hcap, hdel]

/-- Witness for `capture_del_restores_line`: line "ab", caret (1,1),
Capture 'x' then Del(0) gives back "ab" with caret (1,2). -/
theorem capture_del_restores_line_witness :
    applyEdits 0 appAB [Command.Capture 'x', Command.Del 0] =
      some { appAB with caret_offset := (1, 2) } := by
  have h := capture_del_restores_line appAB 'x' 1 1 ['a', 'b'] rfl
    (by decide) (by decide) rfl (by decide) (by decide) (by decide)
  exact h

/-- Claim C6 counterexample: from the empty line with caret (1,1), Capture 'a'
then Del(0) leaves the line as "a" with caret column 2 — neither the line
content nor the caret column is restored. -/
theorem capture_del_no_round_trip :
    (applyEdits 0 (App.new "u") [Command.Capture 'a', Command.Del 0]).map
        (fun a => (a.buffer, a.caret_offset)) =
      some ([['a']], (1, 2)) ∧
    (([['a']], ((1 : Nat), (2 : Nat))) ≠
      (([[]] : List RStr), ((1 : Nat), (1 : Nat)))) := by
  exact ⟨by decide, by decide⟩

/-- Claim C8 (amended): MoveCaret adds `delta` on the chosen axis (clamped below
at 0), then the row is clamped into [1, line count] and the column into
[1, byte length + 1] of the line at index ((requested row − 1) mod line
count) — the resulting row's line whenever the requested row does not
overshoot the buffer, but a wrapped-around line when it does. -/
theorem move_caret_clamping (app : App) (amount : Int) (row col : Nat)
    (hcaret : app.caret_offset = (row, col)) (hne : 1 ≤ app.buffer.length) :
    (∀ reqc : Nat, reqc = (max ((col : Int) + amount) 0).toNat →
      app.handle 0 (Command.MoveCaret CaretMotion.Character amount) =
        some ({ app with caret_offset :=
          (clampNat row 1 app.buffer.length,
           clampNat reqc 1
             (byteLen (app.buffer.getD ((row - 1) % app.buffer.length) []) + 1)) },
          [])) ∧
    (∀ reqr : Nat, reqr = (max ((row : Int) + amount) 0).toNat →
      app.handle 0 (Command.MoveCaret CaretMotion.Line amount) =
        some ({ app with caret_offset :=
          (clampNat reqr 1 app.buffer.length,
           clampNat col 1
             (byteLen (app.buffer.getD ((reqr - 1) % app.buffer.length) []) + 1)) },
          [])) := by
  constructor <;>
    (intro x hx
     subst hx
     simp only [App.handle, App.handle_caret_move, App.set_caret_2d, hcaret])

/-- Witness for `move_caret_clamping`: scenario D — buffer ["ab","cd"],
caret (2,1), MoveCaret(Line,−1) yields caret (1,1). -/
theorem move_caret_clamping_witness :
    App.handle appScenD 0 (Command.MoveCaret CaretMotion.Line (-1)) =
      some ({ appScenD with caret_offset := (1, 1) }, []) := by
  have h := (move_caret_clamping appScenD (-1) 2 1 rfl (by decide)).2
    ((max ((2 : Int) + (-1)) 0).toNat) rfl
  rw [h]
  rfl

/-- Claim C8 counterexample: buffer ["abcd",""], caret (1,5): MoveCaret(Line,+2)
lands at (2,5), but the resulting row's line is empty, so a column
re-clamped against it (as the claim states) would have to be ≤ 1. -/
theorem move_caret_wrap_counterexample :
    (App.handle appTwoLines 0 (Command.MoveCaret CaretMotion.Line 2)).map
        (fun p => p.1.caret_offset) = some (2, 5) ∧
    ¬ ((5 : Nat) ≤ byteLen (appTwoLines.buffer.getD (2 - 1) []) + 1) := by
  exact ⟨by decide, by decide⟩
